import Mathlib

/- Shallow embedding of src/board_papers.py: the PDF section-targeting core
   (page-range text extraction, agenda parsing, targeted extraction planning)
   and the character-budgeted prompt assembly of analyse_with_claude.
   A PDF document is modelled as a list of pages; a page is `some text` when
   text extraction succeeds and `none` when it raises. -/

namespace BoardPapers

/-- A PDF document: one entry per page; `none` models a page whose text
extraction raises an exception. -/
abbrev Pdf := List (Option String)

/-- Whitespace for Python `str.strip()` (ASCII whitespace characters). -/
def pyIsSpace (c : Char) : Bool :=
  c = ' ' || c = '\t' || c = '\n' || c = '\r' || c = '\x0b' || c = '\x0c'

/-- Python falsiness of `text.strip()`: the string consists of whitespace only. -/
def pyBlank (s : String) : Bool := s.data.all pyIsSpace

/-- Python code-point slice `s[:n]`. -/
def pyTake (s : String) (n : Nat) : String := ⟨s.data.take n⟩

/-- Python `s.lower()` on ASCII letters, as Lean's `Char.toLower`. -/
def pyLower (s : String) : String := ⟨s.data.map Char.toLower⟩

/-- Python `s.upper()` on ASCII letters, as Lean's `Char.toUpper`. -/
def pyUpper (s : String) : String := ⟨s.data.map Char.toUpper⟩

/-- The CHARS_PER_PAGE constant of the source. -/
def CHARS_PER_PAGE : Nat := 3000

/-- The CHAR_LIMIT constant of the source. -/
def CHAR_LIMIT : Nat := 400000

/-- Loop body of `extract_pages`: per page index, a failed page is swallowed, a
whitespace-only page is dropped, and otherwise the page-marker-prefixed,
3000-character-truncated text is appended to the `parts` accumulator, mirroring
the Python `for` loop. -/
def extractPagesLoop (pdf : Pdf) (parts : List String) : List Nat → List String
  | [] => parts
  | i :: rest =>
    match pdf.getD i none with
    | none => extractPagesLoop pdf parts rest
    | some text =>
      if pyBlank text then extractPagesLoop pdf parts rest
      else
        extractPagesLoop pdf
          (parts ++ ["-- Page " ++ toString (i + 1) ++ " --\n" ++ pyTake text CHARS_PER_PAGE])
          rest

/-- Embedding of `extract_pages(pdf, start, end)`: iterate over
`range(start, min(end, len(pdf)))` and join the collected parts with newlines. -/
def extract_pages (pdf : Pdf) (start fin : Nat) : String :=
  String.intercalate "\n" (extractPagesLoop pdf [] (List.range' start (min fin pdf.length - start)))

/-- The regex class `\w` on lowered ASCII text: letters, digits, underscore. -/
def isWordChar (c : Char) : Bool := c.isAlphanum || c = '_'

/-- A word boundary right after a digit: the next character is absent or not a
word character. -/
def boundaryAfter (l : List Char) : Bool :=
  match l with
  | [] => true
  | c :: _ => !isWordChar c

/-- Numeric value of a digit string, as Python `int` on the captured group. -/
def digitsVal (ds : List Char) : Nat := ds.foldl (fun a c => a * 10 + (c.toNat - 48)) 0

/-- Match the captured group with exactly `n` digits followed by a word
boundary at the head of `l`. -/
def tryDigitsLen (n : Nat) (l : List Char) : Option Nat :=
  let ds := l.take n
  if ds.length = n && ds.all Char.isDigit && boundaryAfter (l.drop n) then some (digitsVal ds)
  else none

/-- Match the greedy group and boundary at the head of `l`: three digits
first, then two, then one, as a backtracking regex engine does. -/
def tryDigits (l : List Char) : Option Nat :=
  match tryDigitsLen 3 l with
  | some n => some n
  | none =>
    match tryDigitsLen 2 l with
    | some n => some n
    | none => tryDigitsLen 1 l

/-- Match the lazy gap of up to 60 non-newline characters followed by the digit
group: try the digits at the current offset first, then extend the gap one
non-newline character at a time, up to `fuel` characters. -/
def tryGap : Nat → List Char → Option Nat
  | fuel, l =>
    match tryDigits l with
    | some n => some n
    | none =>
      match fuel, l with
      | 0, _ => none
      | _, [] => none
      | f + 1, c :: rest => if c = '\n' then none else tryGap f rest

/-- Match a literal keyword at the head of `l`, returning the remainder. -/
def dropKeyword : List Char → List Char → Option (List Char)
  | [], l => some l
  | _ :: _, [] => none
  | k :: ks, c :: cs => if k = c then dropKeyword ks cs else none

/-- Try the full pattern (keyword alternation, gap, digit group) at the current
position, the keyword alternatives tried in order as a regex alternation does. -/
def matchAt (kws : List (List Char)) (l : List Char) : Option Nat :=
  match kws with
  | [] => none
  | kw :: rest =>
    match dropKeyword kw l with
    | some after =>
      match tryGap 60 after with
      | some n => some n
      | none => matchAt rest l
    | none => matchAt rest l

/-- Embedding of `re.search` for the agenda patterns: try each start position
from left to right and return the first position's match, Python's
leftmost-match rule. -/
def searchFrom (kws : List (List Char)) : List Char → Option Nat
  | [] => matchAt kws []
  | c :: rest =>
    match matchAt kws (c :: rest) with
    | some n => some n
    | none => searchFrom kws rest

/-- Search one topic pattern over the already-lowered agenda text, returning
the captured page number of the first match. -/
def searchTopic (kws : List String) (lowered : String) : Option Nat :=
  searchFrom (kws.map String.data) lowered.data

/-- The five topic patterns of `find_section_starts`, each with its list of
keyword alternatives (the literal alternation of the source regex). -/
def patterns : List (String × List String) :=
  [("ceo_report", ["chief executive"]),
   ("finance", ["finance report"]),
   ("performance", ["integrated performance", "ipr", "performance report"]),
   ("quality", ["quality"]),
   ("workforce", ["people committee", "workforce"])]

/-- Embedding of `find_section_starts(agenda_text, total_pages)`: for each
topic pattern, search the lowered agenda text; accept the first match's page
number only when `3 <= page_num <= total_pages`, storing it 0-indexed. -/
def find_section_starts (agenda_text : String) (total_pages : Nat) : List (String × Nat) :=
  patterns.filterMap fun pat =>
    match searchTopic pat.2 (pyLower agenda_text) with
    | some page_num =>
      if 3 ≤ page_num ∧ page_num ≤ total_pages then some (pat.1, page_num - 1) else none
    | none => none

/-- Python `os.path.basename` for POSIX paths: the characters after the last
slash. -/
def basenameAux (acc : List Char) : List Char → List Char
  | [] => acc
  | c :: rest => if c = '/' then basenameAux [] rest else basenameAux (acc ++ [c]) rest

/-- Label of a document: the basename of its path. -/
def basename (p : String) : String := ⟨basenameAux [] p.data⟩

/-- The fallback chunk size `max(20, total // 3)`. -/
def fallbackChunk (total : Nat) : Nat := max 20 (total / 3)

/-- The three fallback page ranges of the planner. -/
def fallbackRanges (total : Nat) : List (Nat × Nat) :=
  [(0, fallbackChunk total), (fallbackChunk total, fallbackChunk total * 2),
   (fallbackChunk total * 2, total)]

/-- The sequence of `(key, text)` assignments one successfully opened document
makes to `all_sections` in `extract_targeted_text`. -/
def docStores (label : String) (pdf : Pdf) : List (String × String) :=
  let total := pdf.length
  let agenda := extract_pages pdf 0 (min 6 total)
  let sections := find_section_starts agenda total
  (label ++ "__agenda", agenda) ::
    (if sections = [] then
      [(label ++ "__part_1", extract_pages pdf 0 (fallbackChunk total)),
       (label ++ "__part_2", extract_pages pdf (fallbackChunk total) (fallbackChunk total * 2)),
       (label ++ "__part_3", extract_pages pdf (fallbackChunk total * 2) total)]
    else
      sections.map fun s => (label ++ "__" ++ s.1, extract_pages pdf s.2 (min (s.2 + 30) total)))

/-- The whole run's assignment sequence across all input paths; a path whose
document cannot be opened is skipped and contributes nothing. The filesystem is
modelled as a map from path to `none` (open raises) or the document's pages. -/
def corpusStores (fs : String → Option Pdf) (paths : List String) : List (String × String) :=
  paths.flatMap fun p =>
    match fs p with
    | none => []
    | some pdf => docStores (basename p) pdf

/-- Python dict assignment `d[k] = v` on an insertion-ordered dict: update in
place when the key is present (keeping its position), append otherwise. -/
def dictInsert (d : List (String × String)) (k v : String) : List (String × String) :=
  if d.any (fun e => e.1 = k) then d.map (fun e => if e.1 = k then (e.1, v) else e)
  else d ++ [(k, v)]

/-- Embedding of `extract_targeted_text(pdf_paths)`: replay every assignment
into the insertion-ordered dict `all_sections`. -/
def extract_targeted_text (fs : String → Option Pdf) (paths : List String) :
    List (String × String) :=
  (corpusStores fs paths).foldl (fun d e => dictInsert d e.1 e.2) []

/-- The per-section header of `analyse_with_claude`. -/
def sectionHeader (sec : String) : String :=
  "\n\n=== " ++ ((pyUpper sec).replace "_" " ") ++ " ===\n"

/-- The combined-text loop of `analyse_with_claude`: skip blank sections; stop
as soon as the running character total plus this entry's header and text would
pass CHAR_LIMIT; otherwise append header plus text and update the total. -/
def assembleParts : List (String × String) → Nat → List String
  | [], _ => []
  | (sec, text) :: rest, total_chars =>
    if pyBlank text then assembleParts rest total_chars
    else
      if CHAR_LIMIT < total_chars + (sectionHeader sec).length + text.length then []
      else
        (sectionHeader sec ++ text) ::
          assembleParts rest (total_chars + (sectionHeader sec).length + text.length)

/-- The `combined_text` value of `analyse_with_claude`. -/
def combined_text (extracted : List (String × String)) : String :=
  String.join (assembleParts extracted 0)

/-- Entries of the corpus with non-blank text, in order: the only entries the
assembler may include. -/
def nonBlank (extracted : List (String × String)) : List (String × String) :=
  extracted.filter fun e => !pyBlank e.2

/-- Size an entry contributes to the running total: header plus text length. -/
def entrySize (e : String × String) : Nat := (sectionHeader e.1).length + e.2.length

/-- Rendered form of an included entry. -/
def fmtEntry (e : String × String) : String := sectionHeader e.1 ++ e.2

/-- Number of leading non-blank entries the assembler includes, starting from a
given running total. -/
def includedCount : List (String × String) → Nat → Nat
  | [], _ => 0
  | e :: rest, total =>
    if CHAR_LIMIT < total + entrySize e then 0 else 1 + includedCount rest (total + entrySize e)

/-- Sum of the sizes of the first `j` entries of a list. -/
def prefixSize (l : List (String × String)) (j : Nat) : Nat :=
  ((l.take j).map entrySize).sum

/-- Modelled from the spec: one page's contribution to the PageTextExtractor
output (the spec-shaped description, to be compared with the source-shaped
loop `extractPagesLoop`). -/
def pageSegment (pdf : Pdf) (i : Nat) : Option String :=
  match pdf.getD i none with
  | none => none
  | some text =>
    if pyBlank text then none
    else some ("-- Page " ++ toString (i + 1) ++ " --\n" ++ pyTake text CHARS_PER_PAGE)

/-- The fallback section names. -/
def partNames : List String := ["part_1", "part_2", "part_3"]

/-- Every section name a document can ever use. -/
def sectionNames : List String :=
  ["agenda", "ceo_report", "finance", "performance", "quality", "workforce",
   "part_1", "part_2", "part_3"]

/-- The section names one document's stores use, in order. -/
def docNames (pdf : Pdf) : List String :=
  "agenda" ::
    (if find_section_starts (extract_pages pdf 0 (min 6 pdf.length)) pdf.length = [] then
      ["part_1", "part_2", "part_3"]
    else
      (find_section_starts (extract_pages pdf 0 (min 6 pdf.length)) pdf.length).map Prod.fst)

/-- Concrete filesystem for the C9 witness: one good document, all other paths
fail to open. -/
def fsW : String → Option Pdf := fun p =>
  if p = "good.pdf" then some [some "hi"] else none

/-- Concrete filesystem for the C8 counterexample: two openable documents whose
paths share a basename. -/
def fsC : String → Option Pdf := fun p =>
  if p = "a/x.pdf" then some [some "alpha"]
  else if p = "b/x.pdf" then some [some "beta"] else none

/-- Concrete filesystem for the C8 witness: two documents with distinct
basenames. -/
def fsD : String → Option Pdf := fun p =>
  if p = "a/x.pdf" then some [some "alpha"]
  else if p = "b/y.pdf" then some [some "beta"] else none

/-- Concrete seven-page document whose agenda pages locate a quality section,
for the C3 witness. -/
def pdfT : Pdf :=
  [some "quality review 7", some "a", some "b", some "c", some "d", some "e", some "f"]

/-! Helper lemmas about the extraction loop. -/

/-- The accumulating extraction loop collects exactly the page segments of the
index list, appended to the accumulator. -/
theorem extractPagesLoop_eq (pdf : Pdf) :
    ∀ (idxs : List Nat) (parts : List String),
      extractPagesLoop pdf parts idxs = parts ++ idxs.filterMap (pageSegment pdf) := by
  intro idxs
  induction idxs with
  | nil => intro parts; simp [extractPagesLoop]
  | cons i rest ih =>
    intro parts
    simp only [extractPagesLoop, List.filterMap_cons, pageSegment]
    cases h : pdf.getD i none with
    | none => simp [ih]
    | some text =>
      cases hb : pyBlank text with
      | true => simp [ih, hb]
      | false => simp [ih, hb, List.append_assoc]

/-- Claim C6: `extract_pages` output is the newline-join of one optional segment per
page of the clamped range: a failed page yields nothing, a whitespace-only page
yields nothing, and every other page yields its text truncated to 3000
characters under its 1-indexed page marker; moreover every index the loop
touches is within the document. -/
theorem extract_pages_page_structure (pdf : Pdf) (start fin : Nat) :
    extract_pages pdf start fin =
      String.intercalate "\n"
        ((List.range' start (min fin pdf.length - start)).filterMap (pageSegment pdf)) ∧
    ∀ i ∈ List.range' start (min fin pdf.length - start), start ≤ i ∧ i < pdf.length := by
  constructor
  · rw [extract_pages, extractPagesLoop_eq]
    rfl
  · intro i hi
    rw [List.mem_range'] at hi
    obtain ⟨j, hj, rfl⟩ := hi
    constructor
    · omega
    · have h1 : start + j < start + (min fin pdf.length - start) := by omega
      have h2 : min fin pdf.length ≤ pdf.length := Nat.min_le_right _ _
      omega

/-- Claim C6 witness: the structure theorem at a concrete document and range. -/
theorem extract_pages_page_structure_witness :
    extract_pages [some "alpha", none, some "  ", some "beta"] 0 10 =
      String.intercalate "\n"
        (List.filterMap (pageSegment [some "alpha", none, some "  ", some "beta"])
          (List.range' 0 (min 10 (List.length [some "alpha", none, some "  ", some "beta"]) - 0))) ∧
    ∀ i ∈ List.range' 0 (min 10 (List.length [some "alpha", none, some "  ", some "beta"]) - 0),
      0 ≤ i ∧ i < List.length [some "alpha", none, some "  ", some "beta"] :=
  extract_pages_page_structure [some "alpha", none, some "  ", some "beta"] 0 10

/-- Claim C5: the extractor clamps the end of the range to the page count (requesting
past the end behaves exactly as requesting the page count), and a start at or
past the page count yields the empty string. -/
theorem extract_pages_clamps (pdf : Pdf) (start fin : Nat) :
    (pdf.length < fin → extract_pages pdf start fin = extract_pages pdf start pdf.length) ∧
    (pdf.length ≤ start → extract_pages pdf start fin = "") := by
  constructor
  · intro h
    rw [extract_pages, extract_pages, Nat.min_eq_right (Nat.le_of_lt h), Nat.min_self]
  · intro h
    have hz : min fin pdf.length - start = 0 := by
      have := Nat.min_le_right fin pdf.length
      omega
    rw [extract_pages, hz]
    rfl

/-- Claim C5 witness: clamping and out-of-range start at a concrete document. -/
theorem extract_pages_clamps_witness :
    extract_pages [some "a"] 0 5 = extract_pages [some "a"] 0 (List.length [some "a"]) ∧
    extract_pages [some "a"] 2 5 = "" :=
  ⟨(extract_pages_clamps [some "a"] 0 5).1 (by decide),
   (extract_pages_clamps [some "a"] 2 5).2 (by decide)⟩

/-! Helper lemmas about the agenda-section locator. -/

/-- Distinct topic patterns carry distinct names. -/
theorem patterns_name_inj : ∀ x ∈ patterns, ∀ y ∈ patterns, x.1 = y.1 → x = y := by decide

/-- Characterization of membership in the locator's result: the entry's name is
a pattern name, its stored page is the first match's page number minus one, and
that page number lies in `[3, total_pages]`. -/
theorem find_section_starts_mem {a : String} {t : Nat} {n : String} {p : Nat}
    (h : (n, p) ∈ find_section_starts a t) :
    ∃ kws, (n, kws) ∈ patterns ∧ searchTopic kws (pyLower a) = some (p + 1) ∧
      3 ≤ p + 1 ∧ p + 1 ≤ t := by
  rw [find_section_starts, List.mem_filterMap] at h
  obtain ⟨pat, hpat, hf⟩ := h
  cases hs : searchTopic pat.2 (pyLower a) with
  | none => simp [hs] at hf
  | some q =>
    simp only [hs] at hf
    by_cases hq : 3 ≤ q ∧ q ≤ t
    · rw [if_pos hq] at hf
      have h1 : pat.1 = n ∧ q - 1 = p := by
        simpa [Prod.ext_iff] using hf
      have hq1 : q = p + 1 := by omega
      refine ⟨pat.2, ?_, ?_, ?_, ?_⟩
      · have hpe : pat = (n, pat.2) := by rw [← h1.1]
        rw [← hpe]; exact hpat
      · rw [← hq1]; exact hs
      · omega
      · omega
    · rw [if_neg hq] at hf
      exact absurd hf (by simp)

/-- The name of every returned entry is one of the five pattern names. -/
theorem find_section_starts_fst_mem {a : String} {t : Nat} {n : String} {p : Nat}
    (h : (n, p) ∈ find_section_starts a t) : n ∈ patterns.map Prod.fst := by
  obtain ⟨kws, h1, _⟩ := find_section_starts_mem h
  exact List.mem_map_of_mem Prod.fst h1

/-- First components survive a first-component-preserving filterMap as a
sublist. -/
theorem filterMap_fst_sublist {α β γ : Type} (l : List (α × β)) (f : α × β → Option (α × γ))
    (hf : ∀ x y, f x = some y → y.1 = x.1) :
    ((l.filterMap f).map Prod.fst).Sublist (l.map Prod.fst) := by
  induction l with
  | nil => simp
  | cons x l ih =>
    cases hx : f x with
    | none =>
      simp only [List.filterMap_cons, hx, List.map_cons]
      exact ih.cons _
    | some y =>
      simp only [List.filterMap_cons, hx, List.map_cons]
      rw [hf x y hx]
      exact ih.cons₂ _

/-- The locator's keys form a sublist of the pattern names. -/
theorem find_section_starts_fst_sublist (a : String) (t : Nat) :
    ((find_section_starts a t).map Prod.fst).Sublist (patterns.map Prod.fst) := by
  rw [find_section_starts]
  apply filterMap_fst_sublist
  intro x y hxy
  cases hs : searchTopic x.2 (pyLower a) with
  | none => simp [hs] at hxy
  | some q =>
    simp only [hs] at hxy
    by_cases hq : 3 ≤ q ∧ q ≤ t
    · rw [if_pos hq] at hxy
      cases hxy
      rfl
    · rw [if_neg hq] at hxy
      simp at hxy

/-- Claim C2: every value of the locator mapping comes from a matched page number
`p + 1` with `3 ≤ p + 1 ≤ total_pages`, stored 0-indexed; and a topic whose
first match lies outside that range is absent from the mapping entirely. -/
theorem section_starts_in_range :
    (∀ (a : String) (t : Nat) (n : String) (p : Nat), (n, p) ∈ find_section_starts a t →
      3 ≤ p + 1 ∧ p + 1 ≤ t ∧
        ∃ kws, (n, kws) ∈ patterns ∧ searchTopic kws (pyLower a) = some (p + 1)) ∧
    (∀ (a : String) (t : Nat) (n : String) (kws : List String) (q : Nat),
      (n, kws) ∈ patterns → searchTopic kws (pyLower a) = some q → ¬(3 ≤ q ∧ q ≤ t) →
      ∀ p : Nat, (n, p) ∉ find_section_starts a t) := by
  constructor
  · intro a t n p h
    obtain ⟨kws, h1, h2, h3, h4⟩ := find_section_starts_mem h
    exact ⟨h3, h4, kws, h1, h2⟩
  · intro a t n kws q hk hs hq p hmem
    obtain ⟨kws', h1, h2, h3, h4⟩ := find_section_starts_mem hmem
    have he : (n, kws) = (n, kws') := patterns_name_inj _ hk _ h1 rfl
    have hkk : kws = kws' := by injection he
    rw [← hkk] at h2
    rw [hs] at h2
    have hq' : q = p + 1 := Option.some.inj h2
    exact hq (by omega)

/-- Claim C2 witness: a concrete in-range match is returned 0-indexed. -/
theorem section_starts_in_range_witness :
    3 ≤ 6 + 1 ∧ 6 + 1 ≤ 120 ∧
      ∃ kws, ("quality", kws) ∈ patterns ∧
        searchTopic kws (pyLower "quality review 7") = some (6 + 1) :=
  section_starts_in_range.1 "quality review 7" 120 "quality" 6 (by decide)

/-- Claim C7: the locator keeps at most one entry per topic (its keys are a
deduplicated sublist of the five pattern names, in pattern order), and the
spec's concrete example: a mixed-case agenda line "Finance Report .......... 42"
with 120 pages yields exactly the finance entry 41 (0-indexed). -/
theorem locator_one_match_per_topic :
    (∀ (a : String) (t : Nat),
      ((find_section_starts a t).map Prod.fst).Sublist (patterns.map Prod.fst) ∧
      ((find_section_starts a t).map Prod.fst).Nodup) ∧
    find_section_starts "Finance Report .......... 42" 120 = [("finance", 41)] := by
  constructor
  · intro a t
    exact ⟨find_section_starts_fst_sublist a t,
      (find_section_starts_fst_sublist a t).nodup (by decide)⟩
  · decide

/-- Claim C10: the locator only ever considers the first match of a topic's pattern:
when that match's page number is out of range the topic is absent, whatever
later occurrences the agenda contains; concretely, an agenda whose first
"quality" match yields page 2 but whose later line would yield the in-range
page 50 still returns no quality entry. -/
theorem locator_first_match_only :
    (∀ (a : String) (t : Nat) (n : String) (kws : List String) (q : Nat),
      (n, kws) ∈ patterns → searchTopic kws (pyLower a) = some q → (q < 3 ∨ t < q) →
      n ∉ (find_section_starts a t).map Prod.fst) ∧
    (searchTopic ["quality"] (pyLower "quality report page 50") = some 50 ∧
     searchTopic ["quality"] (pyLower "quality 2\nquality report page 50") = some 2 ∧
     find_section_starts "quality 2\nquality report page 50" 120 = []) := by
  constructor
  · intro a t n kws q hk hs hq hmem
    rw [List.mem_map] at hmem
    obtain ⟨x, hx, hfx⟩ := hmem
    have hx' : (n, x.2) ∈ find_section_starts a t := by rw [← hfx]; exact hx
    obtain ⟨kws', h1, h2, h3, h4⟩ := find_section_starts_mem hx'
    have he : (n, kws) = (n, kws') := patterns_name_inj _ hk _ h1 rfl
    have hkk : kws = kws' := by injection he
    rw [← hkk] at h2
    rw [hs] at h2
    have hq' : q = x.2 + 1 := Option.some.inj h2
    rcases hq with h | h
    · omega
    · omega
  · exact ⟨by decide, by decide, by decide⟩

/-- Claim C10 witness: the rejected first match suppresses the topic at a concrete
agenda although a later occurrence is in range. -/
theorem locator_first_match_only_witness :
    "quality" ∉ (find_section_starts "quality 2\nquality report page 50" 120).map Prod.fst :=
  locator_first_match_only.1 "quality 2\nquality report page 50" 120 "quality" ["quality"] 2
    (by decide) (by decide) (Or.inl (by decide))

/-! Helper lemmas about the targeted-extraction planner. -/

/-- Left cancellation for string append. -/
theorem str_append_cancel_left {a b c : String} (h : a ++ b = a ++ c) : b = c := by
  apply String.ext
  have hd := congrArg String.data h
  simp only [String.data_append] at hd
  exact List.append_cancel_left hd

/-- Splitting a literal key suffix into the separator and the section name. -/
theorem lit_key (label : String) {s n : String} (h : s = "__" ++ n) :
    label ++ s = label ++ "__" ++ n := by
  rw [h, ← String.append_assoc]

/-- Two keys with the same label carry the same section name. -/
theorem key_eq_name {label n m : String} (h : label ++ "__" ++ n = label ++ "__" ++ m) :
    n = m :=
  str_append_cancel_left h

/-- Core of claim C3: agenda membership and strategy exclusivity for one
document. -/
theorem planner_core :
    ∀ (label : String) (pdf : Pdf),
      (label ++ "__agenda", extract_pages pdf 0 (min 6 pdf.length)) ∈ docStores label pdf ∧
      ¬((∃ n ∈ patterns.map Prod.fst,
            (label ++ "__" ++ n) ∈ (docStores label pdf).map Prod.fst) ∧
        (∃ j ∈ partNames, (label ++ "__" ++ j) ∈ (docStores label pdf).map Prod.fst)) := by
  intro label pdf
  have e1 : label ++ "__agenda" = label ++ "__" ++ "agenda" := lit_key label (by decide)
  have e2 : label ++ "__part_1" = label ++ "__" ++ "part_1" := lit_key label (by decide)
  have e3 : label ++ "__part_2" = label ++ "__" ++ "part_2" := lit_key label (by decide)
  have e4 : label ++ "__part_3" = label ++ "__" ++ "part_3" := lit_key label (by decide)
  constructor
  · exact List.Mem.head _
  · rintro ⟨⟨n, hn, hkn⟩, ⟨j, hj, hkj⟩⟩
    by_cases hS : find_section_starts (extract_pages pdf 0 (min 6 pdf.length)) pdf.length = []
    · have hkeys : (docStores label pdf).map Prod.fst =
          [label ++ "__" ++ "agenda", label ++ "__" ++ "part_1", label ++ "__" ++ "part_2",
           label ++ "__" ++ "part_3"] := by
        simp [docStores, hS, e1, e2, e3, e4]
      rw [hkeys] at hkn
      simp only [List.mem_cons, List.not_mem_nil, or_false] at hkn
      rcases hkn with h | h | h | h <;> (rw [key_eq_name h] at hn; exact absurd hn (by decide))
    · have hkeys : (docStores label pdf).map Prod.fst =
          (label ++ "__" ++ "agenda") ::
            (find_section_starts (extract_pages pdf 0 (min 6 pdf.length)) pdf.length).map
              (fun s => label ++ "__" ++ s.1) := by
        simp [docStores, hS, e1, Function.comp]
      rw [hkeys] at hkj
      rcases List.mem_cons.mp hkj with h | h
      · rw [key_eq_name h] at hj
        exact absurd hj (by decide)
      · rw [List.mem_map] at h
        obtain ⟨s, hsmem, hseq⟩ := h
        have hj1 : s.1 = j := key_eq_name hseq
        have hs1 : s.1 ∈ patterns.map Prod.fst :=
          find_section_starts_fst_mem (show (s.1, s.2) ∈ _ from hsmem)
        rw [hj1] at hs1
        have hdisj : ∀ x ∈ partNames, x ∉ patterns.map Prod.fst := by decide
        exact hdisj j hj hs1

/-- Claim C3: a document's stores always contain the agenda entry covering
pages `[0, min(6, total_pages))` under the key `<label>__agenda`; when the
locator found at least one section the remaining entries are exactly the
topic-keyed 30-page windows; and the stores never contain a topic-keyed entry
and a part-keyed entry at the same time. -/
theorem planner_agenda_and_exclusivity :
    (∀ (label : String) (pdf : Pdf),
      (label ++ "__agenda", extract_pages pdf 0 (min 6 pdf.length)) ∈ docStores label pdf ∧
      ¬((∃ n ∈ patterns.map Prod.fst,
            (label ++ "__" ++ n) ∈ (docStores label pdf).map Prod.fst) ∧
        (∃ j ∈ partNames, (label ++ "__" ++ j) ∈ (docStores label pdf).map Prod.fst))) ∧
    (∀ (label : String) (pdf : Pdf),
      find_section_starts (extract_pages pdf 0 (min 6 pdf.length)) pdf.length ≠ [] →
      docStores label pdf =
        (label ++ "__agenda", extract_pages pdf 0 (min 6 pdf.length)) ::
          (find_section_starts (extract_pages pdf 0 (min 6 pdf.length)) pdf.length).map
            (fun s =>
              (label ++ "__" ++ s.1, extract_pages pdf s.2 (min (s.2 + 30) pdf.length)))) := by
  refine ⟨planner_core, ?_⟩
  intro label pdf hS
  simp [docStores, hS]

/-- Claim C3 witness: the planner theorem at a concrete one-page fallback
document and at a concrete seven-page document whose agenda locates the
quality section. -/
theorem planner_agenda_and_exclusivity_witness :
    (("d.pdf" ++ "__agenda",
        extract_pages ([some "x"] : Pdf) 0 (min 6 (List.length ([some "x"] : Pdf)))) ∈
          docStores "d.pdf" [some "x"] ∧
      ¬((∃ n ∈ patterns.map Prod.fst,
            ("d.pdf" ++ "__" ++ n) ∈ (docStores "d.pdf" [some "x"]).map Prod.fst) ∧
        (∃ j ∈ partNames,
            ("d.pdf" ++ "__" ++ j) ∈ (docStores "d.pdf" [some "x"]).map Prod.fst))) ∧
    find_section_starts (extract_pages pdfT 0 (min 6 pdfT.length)) pdfT.length ≠ [] ∧
    docStores "t.pdf" pdfT =
      ("t.pdf" ++ "__agenda", extract_pages pdfT 0 (min 6 pdfT.length)) ::
        (find_section_starts (extract_pages pdfT 0 (min 6 pdfT.length)) pdfT.length).map
          (fun s => ("t.pdf" ++ "__" ++ s.1, extract_pages pdfT s.2 (min (s.2 + 30) pdfT.length))) :=
  ⟨planner_agenda_and_exclusivity.1 "d.pdf" [some "x"], by decide,
   planner_agenda_and_exclusivity.2 "t.pdf" pdfT (by decide)⟩

/-- Claim C4: in fallback mode the planner stores exactly the agenda entry and the
three parts over the ranges derived from `chunk = max(20, total // 3)`; those
three ranges are contiguous by construction, and every page of the document
lies in exactly one of them; with the spec's concrete instances for 90 and 40
pages. -/
theorem fallback_partition :
    (∀ (label : String) (pdf : Pdf),
      find_section_starts (extract_pages pdf 0 (min 6 pdf.length)) pdf.length = [] →
      docStores label pdf =
        [(label ++ "__agenda", extract_pages pdf 0 (min 6 pdf.length)),
         (label ++ "__part_1", extract_pages pdf 0 (fallbackChunk pdf.length)),
         (label ++ "__part_2",
           extract_pages pdf (fallbackChunk pdf.length) (fallbackChunk pdf.length * 2)),
         (label ++ "__part_3", extract_pages pdf (fallbackChunk pdf.length * 2) pdf.length)]) ∧
    (∀ total : Nat,
      fallbackRanges total =
        [(0, fallbackChunk total), (fallbackChunk total, fallbackChunk total * 2),
         (fallbackChunk total * 2, total)] ∧
      fallbackChunk total = max 20 (total / 3)) ∧
    (∀ total p : Nat, p < total →
      (fallbackRanges total).countP (fun r => decide (r.1 ≤ p ∧ p < r.2)) = 1) ∧
    fallbackRanges 90 = [(0, 30), (30, 60), (60, 90)] ∧
    fallbackRanges 40 = [(0, 20), (20, 40), (40, 40)] := by
  refine ⟨?_, fun total => ⟨rfl, rfl⟩, ?_, by decide, by decide⟩
  · intro label pdf hS
    simp [docStores, hS]
  · intro total p hp
    unfold fallbackRanges fallbackChunk
    rcases Nat.le_total 20 (total / 3) with h | h
    · rw [Nat.max_eq_right h]
      simp only [List.countP_cons, List.countP_nil, decide_eq_true_eq]
      split_ifs <;> omega
    · rw [Nat.max_eq_left h]
      simp only [List.countP_cons, List.countP_nil, decide_eq_true_eq]
      split_ifs <;> omega

/-- Claim C4 witness: the fallback branch taken at a concrete one-page document, and
the exactly-one-range property at a concrete page. -/
theorem fallback_partition_witness :
    find_section_starts (extract_pages ([some "y"] : Pdf) 0 (min 6 (List.length ([some "y"] : Pdf))))
        (List.length ([some "y"] : Pdf)) = [] ∧
    docStores "e.pdf" [some "y"] =
      [("e.pdf" ++ "__agenda",
          extract_pages ([some "y"] : Pdf) 0 (min 6 (List.length ([some "y"] : Pdf)))),
       ("e.pdf" ++ "__part_1",
          extract_pages ([some "y"] : Pdf) 0 (fallbackChunk (List.length ([some "y"] : Pdf)))),
       ("e.pdf" ++ "__part_2",
          extract_pages ([some "y"] : Pdf) (fallbackChunk (List.length ([some "y"] : Pdf)))
            (fallbackChunk (List.length ([some "y"] : Pdf)) * 2)),
       ("e.pdf" ++ "__part_3",
          extract_pages ([some "y"] : Pdf) (fallbackChunk (List.length ([some "y"] : Pdf)) * 2)
            (List.length ([some "y"] : Pdf)))] ∧
    (fallbackRanges 90).countP (fun r => decide (r.1 ≤ 45 ∧ 45 < r.2)) = 1 :=
  ⟨by decide, fallback_partition.1 "e.pdf" [some "y"] (by decide),
   fallback_partition.2.2.1 90 45 (by decide)⟩

/-! Helper lemmas about the prompt assembler. -/

/-- Length of a joined string is the sum of the parts' lengths. -/
theorem str_join_length (l : List String) :
    (String.join l).length = (l.map String.length).sum := by
  rw [String.join_eq]
  show ((l.map String.data).flatten).length = _
  rw [List.length_flatten, List.map_map]
  rfl

/-- The assembler's output is exactly the first `includedCount` non-blank
entries, each rendered in full as header plus text. -/
theorem assemble_eq_take :
    ∀ (l : List (String × String)) (total : Nat),
      assembleParts l total =
        ((nonBlank l).take (includedCount (nonBlank l) total)).map fmtEntry := by
  intro l
  induction l with
  | nil => intro total; simp [assembleParts, nonBlank, includedCount]
  | cons e rest ih =>
    intro total
    obtain ⟨sec, text⟩ := e
    by_cases hb : pyBlank text
    · have hnb : nonBlank ((sec, text) :: rest) = nonBlank rest := by
        simp [nonBlank, List.filter_cons, hb]
      rw [hnb]
      simp only [assembleParts]
      rw [if_pos hb]
      exact ih total
    · have hnb : nonBlank ((sec, text) :: rest) = (sec, text) :: nonBlank rest := by
        simp [nonBlank, List.filter_cons, hb]
      rw [hnb]
      simp only [assembleParts]
      rw [if_neg hb]
      have ha : total + (sectionHeader sec).length + text.length =
          total + entrySize (sec, text) := by
        simp [entrySize]
        omega
      rw [ha, includedCount]
      by_cases hlim : CHAR_LIMIT < total + entrySize (sec, text)
      · rw [if_pos hlim, if_pos hlim]
        simp
      · rw [if_neg hlim, if_neg hlim]
        rw [Nat.add_comm 1, List.take_succ_cons]
        simp [fmtEntry, ih]

/-- Invariant of the assembler loop: starting at or below the ceiling, the
running total plus everything still appended stays at or below the ceiling. -/
theorem assemble_length_le :
    ∀ (l : List (String × String)) (total : Nat), total ≤ CHAR_LIMIT →
      total + ((assembleParts l total).map String.length).sum ≤ CHAR_LIMIT := by
  intro l
  induction l with
  | nil => intro total h; simpa [assembleParts]
  | cons e rest ih =>
    intro total h
    obtain ⟨sec, text⟩ := e
    by_cases hb : pyBlank text
    · simp only [assembleParts]
      rw [if_pos hb]
      exact ih total h
    · simp only [assembleParts]
      rw [if_neg hb]
      by_cases hlim : CHAR_LIMIT < total + (sectionHeader sec).length + text.length
      · rw [if_pos hlim]
        simpa
      · rw [if_neg hlim]
        have hrec := ih (total + (sectionHeader sec).length + text.length) (by omega)
        simp only [List.map_cons, List.sum_cons, String.length_append]
        omega

/-- The cutoff is exact: every included prefix fits in the ceiling, and the
first omitted non-blank entry (when one exists) would overflow it. -/
theorem included_prefix_bounds :
    ∀ (nb : List (String × String)) (total : Nat),
      (∀ j : Nat, j + 1 ≤ includedCount nb total →
        total + prefixSize nb (j + 1) ≤ CHAR_LIMIT) ∧
      (includedCount nb total < nb.length →
        CHAR_LIMIT < total + prefixSize nb (includedCount nb total + 1)) := by
  intro nb
  induction nb with
  | nil =>
    intro total
    constructor
    · intro j hj
      simp [includedCount] at hj
    · intro hlen
      simp at hlen
  | cons e rest ih =>
    intro total
    have hps : ∀ j, prefixSize (e :: rest) (j + 1) = entrySize e + prefixSize rest j := by
      intro j
      simp [prefixSize, List.take_succ_cons]
    constructor
    · intro j hj
      rw [includedCount] at hj
      by_cases hlim : CHAR_LIMIT < total + entrySize e
      · rw [if_pos hlim] at hj
        omega
      · rw [if_neg hlim] at hj
        cases j with
        | zero =>
          rw [hps]
          simp [prefixSize]
          omega
        | succ j' =>
          rw [hps]
          have hrec := (ih (total + entrySize e)).1 j' (by omega)
          omega
    · intro hlen
      rw [includedCount] at hlen ⊢
      by_cases hlim : CHAR_LIMIT < total + entrySize e
      · rw [if_pos hlim] at hlen ⊢
        rw [hps]
        simp [prefixSize]
        omega
      · rw [if_neg hlim] at hlen ⊢
        have hlen' : includedCount rest (total + entrySize e) < rest.length := by
          simp at hlen
          omega
        have hrec := (ih (total + entrySize e)).2 hlen'
        rw [show 1 + includedCount rest (total + entrySize e) + 1 =
            (includedCount rest (total + entrySize e) + 1) + 1 by omega]
        rw [hps]
        omega

/-- Claim C1: the combined text never exceeds CHAR_LIMIT, the appended parts are
exactly a prefix of the non-blank entries each rendered whole (so the omitted
entries are exactly a suffix and no entry is truncated mid-entry), every
included prefix fits under the ceiling, and the first omitted non-blank entry,
when one exists, is precisely the one whose header plus text would push the
running total past the ceiling. -/
theorem prompt_assembly_ceiling (extracted : List (String × String)) :
    (combined_text extracted).length ≤ CHAR_LIMIT ∧
    assembleParts extracted 0 =
      ((nonBlank extracted).take (includedCount (nonBlank extracted) 0)).map fmtEntry ∧
    (∀ j : Nat, j + 1 ≤ includedCount (nonBlank extracted) 0 →
      prefixSize (nonBlank extracted) (j + 1) ≤ CHAR_LIMIT) ∧
    (includedCount (nonBlank extracted) 0 < (nonBlank extracted).length →
      CHAR_LIMIT < prefixSize (nonBlank extracted) (includedCount (nonBlank extracted) 0 + 1)) := by
  refine ⟨?_, assemble_eq_take extracted 0, ?_, ?_⟩
  · rw [combined_text, str_join_length]
    have h := assemble_length_le extracted 0 (by simp [CHAR_LIMIT])
    omega
  · intro j hj
    have h := (included_prefix_bounds (nonBlank extracted) 0).1 j hj
    omega
  · intro h
    have hb := (included_prefix_bounds (nonBlank extracted) 0).2 h
    omega

/-- Claim C1 witness: the ceiling theorem at a concrete two-entry corpus. -/
theorem prompt_assembly_ceiling_witness :
    (combined_text [("finance", "hello"), ("quality", " ")]).length ≤ CHAR_LIMIT ∧
    assembleParts [("finance", "hello"), ("quality", " ")] 0 =
      ((nonBlank [("finance", "hello"), ("quality", " ")]).take
        (includedCount (nonBlank [("finance", "hello"), ("quality", " ")]) 0)).map fmtEntry ∧
    (∀ j : Nat, j + 1 ≤ includedCount (nonBlank [("finance", "hello"), ("quality", " ")]) 0 →
      prefixSize (nonBlank [("finance", "hello"), ("quality", " ")]) (j + 1) ≤ CHAR_LIMIT) ∧
    (includedCount (nonBlank [("finance", "hello"), ("quality", " ")]) 0 <
        (nonBlank [("finance", "hello"), ("quality", " ")]).length →
      CHAR_LIMIT <
        prefixSize (nonBlank [("finance", "hello"), ("quality", " ")])
          (includedCount (nonBlank [("finance", "hello"), ("quality", " ")]) 0 + 1)) :=
  prompt_assembly_ceiling [("finance", "hello"), ("quality", " ")]

/-! Failure handling of the corpus-building phase. -/

/-- Claim C9: a document that cannot be opened contributes nothing to the corpus
(not even an agenda entry) and its failure does not disturb the other
documents: the run's corpus equals the corpus of the path list with the failing
path removed. -/
theorem failed_document_skipped :
    ∀ (fs : String → Option Pdf) (paths : List String) (bad : String), fs bad = none →
      extract_targeted_text fs paths =
        extract_targeted_text fs (paths.filter fun p => p ≠ bad) := by
  intro fs paths bad hbad
  have hcs : corpusStores fs paths = corpusStores fs (paths.filter fun p => p ≠ bad) := by
    induction paths with
    | nil => rfl
    | cons q rest ih =>
      by_cases hq : q = bad
      · subst hq
        simp only [corpusStores, List.flatMap_cons, List.filter_cons] at *
        simp [hbad, ih]
      · simp only [corpusStores, List.flatMap_cons, List.filter_cons] at *
        simp [hq, ih]
  rw [extract_targeted_text, extract_targeted_text, hcs]

/-- Claim C9 witness: the skip theorem at a concrete filesystem. -/
theorem failed_document_skipped_witness :
    fsW "bad.pdf" = none ∧
    extract_targeted_text fsW ["good.pdf", "bad.pdf"] =
      extract_targeted_text fsW (["good.pdf", "bad.pdf"].filter fun p => p ≠ "bad.pdf") :=
  ⟨by decide, failed_document_skipped fsW ["good.pdf", "bad.pdf"] "bad.pdf" (by decide)⟩

/-! Append-only behaviour of the corpus dictionary. -/

/-- The keys of a document's stores are its section names under its label. -/
theorem docStores_keys (label : String) (pdf : Pdf) :
    (docStores label pdf).map Prod.fst = (docNames pdf).map (fun n => label ++ "__" ++ n) := by
  have e1 : label ++ "__agenda" = label ++ "__" ++ "agenda" := lit_key label (by decide)
  have e2 : label ++ "__part_1" = label ++ "__" ++ "part_1" := lit_key label (by decide)
  have e3 : label ++ "__part_2" = label ++ "__" ++ "part_2" := lit_key label (by decide)
  have e4 : label ++ "__part_3" = label ++ "__" ++ "part_3" := lit_key label (by decide)
  by_cases hS : find_section_starts (extract_pages pdf 0 (min 6 pdf.length)) pdf.length = []
  · simp [docStores, docNames, hS, e1, e2, e3, e4]
  · simp [docStores, docNames, hS, e1, Function.comp]

/-- Every name a document uses is a section name. -/
theorem docNames_sub (pdf : Pdf) : ∀ n ∈ docNames pdf, n ∈ sectionNames := by
  intro n hn
  rw [docNames] at hn
  rcases List.mem_cons.mp hn with rfl | hn'
  · decide
  · by_cases hS : find_section_starts (extract_pages pdf 0 (min 6 pdf.length)) pdf.length = []
    · rw [if_pos hS] at hn'
      simp only [List.mem_cons, List.not_mem_nil, or_false] at hn'
      rcases hn' with rfl | rfl | rfl <;> decide
    · rw [if_neg hS] at hn'
      rw [List.mem_map] at hn'
      obtain ⟨s, hs, rfl⟩ := hn'
      have hfst := find_section_starts_fst_mem (show (s.1, s.2) ∈ _ from hs)
      have hsub : ∀ x ∈ patterns.map Prod.fst, x ∈ sectionNames := by decide
      exact hsub _ hfst

/-- A document's section names are pairwise distinct. -/
theorem docNames_nodup (pdf : Pdf) : (docNames pdf).Nodup := by
  rw [docNames]
  by_cases hS : find_section_starts (extract_pages pdf 0 (min 6 pdf.length)) pdf.length = []
  · rw [if_pos hS]
    decide
  · rw [if_neg hS]
    refine List.nodup_cons.mpr ⟨?_, ?_⟩
    · intro hmem
      rw [List.mem_map] at hmem
      obtain ⟨s, hs, heq⟩ := hmem
      have hfst := find_section_starts_fst_mem (show (s.1, s.2) ∈ _ from hs)
      rw [heq] at hfst
      exact absurd hfst (by decide)
    · exact (find_section_starts_fst_sublist _ _).nodup (by decide)

/-- A shorter right summand of a list equation is obtained from the longer one
by dropping the length difference. -/
theorem append_suffix_extract {A s1 B s2 : List Char} (h : A ++ s1 = B ++ s2)
    (hle : s1.length ≤ s2.length) : s2.drop (s2.length - s1.length) = s1 := by
  have hlen : A.length + s1.length = B.length + s2.length := by
    have hl := congrArg List.length h
    simpa using hl
  have hd : A.length = B.length + (s2.length - s1.length) := by omega
  have h1 : (A ++ s1).drop A.length = s1 := List.drop_left A s1
  rw [h] at h1
  rw [hd, ← List.drop_drop, List.drop_left] at h1
  exact h1

/-- No underscore-prefixed section name is a proper suffix of another: dropping
the length difference from one separator-plus-name recovers the other only when
the names coincide. -/
theorem sectionNames_suffix_inj :
    ∀ n1 ∈ sectionNames, ∀ n2 ∈ sectionNames,
      ( '_' :: '_' :: n2.data).drop
          (( '_' :: '_' :: n2.data).length - ( '_' :: '_' :: n1.data).length) =
        '_' :: '_' :: n1.data →
      n1 = n2 := by decide

/-- Corpus keys decompose uniquely into a label and a section name. -/
theorem key_inj :
    ∀ (l1 : String), ∀ n1 ∈ sectionNames, ∀ (l2 : String), ∀ n2 ∈ sectionNames,
      l1 ++ "__" ++ n1 = l2 ++ "__" ++ n2 → l1 = l2 ∧ n1 = n2 := by
  intro l1 n1 hn1 l2 n2 hn2 h
  have hd : l1.data ++ ( '_' :: '_' :: n1.data) = l2.data ++ ( '_' :: '_' :: n2.data) := by
    have hdd := congrArg String.data h
    simpa [String.data_append, List.append_assoc] using hdd
  have hnn : n1 = n2 := by
    rcases Nat.le_total n1.data.length n2.data.length with hle | hle
    · exact sectionNames_suffix_inj n1 hn1 n2 hn2
        (append_suffix_extract hd (by simpa using hle))
    · exact (sectionNames_suffix_inj n2 hn2 n1 hn1
        (append_suffix_extract hd.symm (by simpa using hle))).symm
  subst hnn
  exact ⟨String.ext (List.append_cancel_right hd), rfl⟩

/-- Every key of the run's store sequence is the basename of one of the paths
followed by a section name. -/
theorem corpus_key_char (fs : String → Option Pdf) :
    ∀ (paths : List String) (k : String), k ∈ (corpusStores fs paths).map Prod.fst →
      ∃ p ∈ paths, ∃ n ∈ sectionNames, k = basename p ++ "__" ++ n := by
  intro paths
  induction paths with
  | nil => intro k hk; simp [corpusStores] at hk
  | cons q rest ih =>
    intro k hk
    rw [corpusStores, List.flatMap_cons, List.map_append, List.mem_append] at hk
    rcases hk with hk | hk
    · cases hfs : fs q with
      | none =>
        rw [hfs] at hk
        simp at hk
      | some pdf =>
        rw [hfs] at hk
        rw [docStores_keys, List.mem_map] at hk
        obtain ⟨n, hn, hkeq⟩ := hk
        exact ⟨q, List.mem_cons_self _ _, n, docNames_sub pdf n hn, hkeq.symm⟩
    · obtain ⟨p, hp, n, hn, hkeq⟩ := ih k hk
      exact ⟨p, List.mem_cons_of_mem _ hp, n, hn, hkeq⟩

/-- With pairwise-distinct labels, all keys of the store sequence are
pairwise distinct. -/
theorem corpus_keys_nodup (fs : String → Option Pdf) :
    ∀ paths : List String, (paths.map basename).Nodup →
      ((corpusStores fs paths).map Prod.fst).Nodup := by
  intro paths
  induction paths with
  | nil => intro _; simp [corpusStores]
  | cons q rest ih =>
    intro hnd
    rw [List.map_cons, List.nodup_cons] at hnd
    obtain ⟨hq, hrest⟩ := hnd
    rw [corpusStores, List.flatMap_cons, List.map_append]
    cases hfs : fs q with
    | none => simpa using ih hrest
    | some pdf =>
      apply List.Nodup.append
      · rw [docStores_keys]
        exact List.Nodup.map (fun x y hxy => str_append_cancel_left hxy) (docNames_nodup pdf)
      · exact ih hrest
      · intro k hk1 hk2
        rw [docStores_keys, List.mem_map] at hk1
        obtain ⟨n1, hn1, hkeq1⟩ := hk1
        obtain ⟨p, hp, n2, hn2, hkeq2⟩ := corpus_key_char fs rest k hk2
        have hkk : basename q ++ "__" ++ n1 = basename p ++ "__" ++ n2 :=
          hkeq1.trans hkeq2
        have hinj := key_inj (basename q) n1 (docNames_sub pdf n1 hn1) (basename p) n2 hn2 hkk
        apply hq
        rw [hinj.1]
        exact List.mem_map_of_mem basename hp

/-- Replaying assignments whose keys are fresh and pairwise distinct is pure
appending. -/
theorem foldl_dictInsert_append :
    ∀ (stores d : List (String × String)),
      (stores.map Prod.fst).Nodup →
      (∀ k ∈ stores.map Prod.fst, k ∉ d.map Prod.fst) →
      stores.foldl (fun acc e => dictInsert acc e.1 e.2) d = d ++ stores := by
  intro stores
  induction stores with
  | nil => intro d _ _; simp
  | cons e rest ih =>
    intro d hnd hdisj
    rw [List.map_cons, List.nodup_cons] at hnd
    obtain ⟨hne, hndrest⟩ := hnd
    have hek : e.1 ∉ d.map Prod.fst := hdisj e.1 (by simp)
    have hcond : ¬(d.any (fun x => x.1 = e.1) = true) := by
      simp only [List.any_eq_true, decide_eq_true_eq, not_exists, not_and]
      intro x hx hx1
      exact hek (hx1 ▸ List.mem_map_of_mem Prod.fst hx)
    have hins : dictInsert d e.1 e.2 = d ++ [e] := by
      rw [dictInsert, if_neg hcond]
    rw [List.foldl_cons, hins, ih (d ++ [e]) hndrest ?fresh]
    · simp
    case fresh =>
      intro k hk
      simp only [List.map_append, List.mem_append, List.map_cons, List.map_nil,
        List.mem_singleton, not_or]
      constructor
      · exact hdisj k (by simp [hk])
      · intro hke
        exact hne (hke ▸ hk)

/-- Claim C8 (amended): when the input paths' basenames are pairwise distinct, the
corpus build is append-only: the final corpus is exactly the sequence of
assignments, every entry stored during the run surviving unchanged. -/
theorem corpus_append_only :
    ∀ (fs : String → Option Pdf) (paths : List String),
      (paths.map basename).Nodup →
      extract_targeted_text fs paths = corpusStores fs paths := by
  intro fs paths h
  rw [extract_targeted_text]
  rw [foldl_dictInsert_append _ [] (corpus_keys_nodup fs paths h) (by simp)]
  simp

/-- Claim C8 counterexample: with two input paths sharing the basename `x.pdf`, the
first document's agenda entry is stored during the run but overwritten by the
second document, so the final corpus does not contain every stored entry. -/
theorem corpus_overwrite_counterexample :
    ("x.pdf__agenda", "-- Page 1 --\nalpha") ∈ corpusStores fsC ["a/x.pdf", "b/x.pdf"] ∧
    ("x.pdf__agenda", "-- Page 1 --\nalpha") ∉
      extract_targeted_text fsC ["a/x.pdf", "b/x.pdf"] := by
  decide

/-- Claim C8 witness: the append-only theorem at a concrete distinct-basename run. -/
theorem corpus_append_only_witness :
    (["a/x.pdf", "b/y.pdf"].map basename).Nodup ∧
    extract_targeted_text fsD ["a/x.pdf", "b/y.pdf"] =
      corpusStores fsD ["a/x.pdf", "b/y.pdf"] :=
  ⟨by decide, corpus_append_only fsD ["a/x.pdf", "b/y.pdf"] (by decide)⟩

end BoardPapers
